import Mathlib

/-!
# Seven-button debouncer (`src/main.cpp`)

Shallow embedding of the Arduino sketch: the configuration tables, the three
global arrays, `setup()` and `loop()`.  Timestamps are `unsigned long`
(32 bit): they are natural numbers below `2 ^ 32`, and the only arithmetic the
sketch performs on them, `millis() - lastDebounceTime[i]`, is subtraction
modulo `2 ^ 32`.

Serial output is modelled as the list of lines handed to `Serial.println`.
-/

namespace Debounce

/-! ## Configuration (lines 1-11) -/

/-- Table `const uint8_t buttonPins[7] = {2, 3, 4, 5, 6, 7, 8};` (line 4). -/
def buttonPins (i : Fin 7) : Nat :=
  [2, 3, 4, 5, 6, 7, 8].getD i.val 0

/-- Table `const char commands[7] = {'A', 'B', 'C', 'D', 'E', 'F', 'G'};` (line 7). -/
def commands (i : Fin 7) : Char :=
  ['A', 'B', 'C', 'D', 'E', 'F', 'G'].getD i.val 'A'

/-- Constant `const unsigned long debounceDelay = 300;` (line 10). -/
def debounceDelay : Nat := 300

/-- Constant `const unsigned long noiseFilterDelay = 30;` (line 11; declared,
never read). -/
def noiseFilterDelay : Nat := 30

/-! ## Machine arithmetic -/

/-- Number of values of an `unsigned long` on the target (32 bit). -/
def ulongModulus : Nat := 2 ^ 32

/-- Subtraction of two `unsigned long` values: the result is reduced modulo
`2 ^ 32`, so a minuend smaller than the subtrahend wraps around. -/
def ulongSub (a b : Nat) : Nat :=
  (a + (ulongModulus - b % ulongModulus)) % ulongModulus

/-! ## Global variables (lines 15-17) -/

/-- The three global arrays of the sketch, each indexed by the channel `0..6`. -/
structure State where
  /-- Array `bool stableState[7];` -/
  stableState : Fin 7 → Bool
  /-- Array `bool lastReading[7];` -/
  lastReading : Fin 7 → Bool
  /-- Array `unsigned long lastDebounceTime[7];` -/
  lastDebounceTime : Fin 7 → Nat

/-! ## `setup()` (lines 21-33) -/

/-- Function `setup()`: every cell of the three arrays is cleared (`LOW` is `false`), and
after the start-up delay the line `READY` is printed.  Returns the state of the
globals and the lines printed. -/
def setup : State × List String :=
  ({ stableState := fun _ => false
     lastReading := fun _ => false
     lastDebounceTime := fun _ => 0 },
   ["READY"])

/-! ## `loop()` (lines 35-60) -/

/-- Body of the `for` loop of `loop()` (lines 37-58) for the index `i`.

`reading` is the value returned by `digitalRead(buttonPins[i])`; `m1` is what
`millis()` returns on line 41 (only consulted when the reading changed) and `m2`
what it returns on line 45.  Returns the globals after the pass and the lines
printed by the pass. -/
def loopBody (i : Fin 7) (reading : Bool) (m1 m2 : Nat) (st : State) :
    State × List String :=
  -- lines 40-42
  let st1 : State :=
    if reading != st.lastReading i then
      { st with lastDebounceTime := Function.update st.lastDebounceTime i m1 }
    else st
  -- lines 45-56
  let r : State × List String :=
    if ulongSub m2 (st1.lastDebounceTime i) > debounceDelay then
      if reading != st1.stableState i then
        let st2 : State :=
          { st1 with stableState := Function.update st1.stableState i reading }
        if st2.stableState i == true then
          (st2, [(commands i).toString])
        else (st2, [])
      else (st1, [])
    else (st1, [])
  -- line 58
  ({ r.1 with lastReading := Function.update r.1.lastReading i reading }, r.2)

/-- The `for (int i = 0; i < 7; i++)` loop of `loop()`, run from index `k` on:
`n` is the number of passes still to run (`k + n = 7`). -/
def loopFrom (digitalRead : Nat → Bool) (now : Nat) :
    Nat → Nat → State → State × List String
  | 0, _, st => (st, [])
  | n + 1, k, st =>
    if h : k < 7 then
      let r := loopBody ⟨k, h⟩ (digitalRead (buttonPins ⟨k, h⟩)) now now st
      let r2 := loopFrom digitalRead now n (k + 1) r.1
      (r2.1, r.2 ++ r2.2)
    else (st, [])

/-- One call of `loop()`: the seven passes in index order, with the pin levels
`digitalRead` and every `millis()` call of the iteration returning `now`. -/
def loop (digitalRead : Nat → Bool) (now : Nat) (st : State) : State × List String :=
  loopFrom digitalRead now 7 0 st

/-- The three cells that belong to channel `i`: `stableState[i]`,
`lastReading[i]` and `lastDebounceTime[i]`. -/
def cells (st : State) (i : Fin 7) : Bool × Bool × Nat :=
  (st.stableState i, st.lastReading i, st.lastDebounceTime i)

/-! ## Polling one channel -/

/-- What one pass of the loop body receives from the outside: the raw level of
the pin and the value of the millisecond clock. -/
structure Sample where
  /-- Value of `digitalRead(buttonPins[i])`. -/
  raw : Bool
  /-- Value of `millis()` (both calls of the pass). -/
  now : Nat
deriving DecidableEq, Repr

/-- One pass of the loop body for channel `i` in which both `millis()` calls
return `p.now`. -/
def poll (i : Fin 7) (st : State) (p : Sample) : State × List String :=
  loopBody i p.raw p.now p.now st

/-- Globals after polling channel `i` with the samples `ps`, in order. -/
def runState (i : Fin 7) (st : State) (ps : List Sample) : State :=
  ps.foldl (fun s p => (poll i s p).1) st

/-- For each poll of `ps` in order: the globals after it and the lines it
printed. -/
def trace (i : Fin 7) : State → List Sample → List (State × List String)
  | _, [] => []
  | st, p :: ps => poll i st p :: trace i (poll i st p).1 ps

/-- Lines printed by each poll of `ps`, in order. -/
def outputs (i : Fin 7) (st : State) (ps : List Sample) : List (List String) :=
  (trace i st ps).map Prod.snd

/-- Value of `stableState[i]` after each poll of `ps`, in order. -/
def stables (i : Fin 7) (st : State) (ps : List Sample) : List Bool :=
  (trace i st ps).map (fun r => r.1.stableState i)

/-! ## Basic facts about one pass -/

theorem ulongSub_of_le {a b : Nat} (hba : b ≤ a) (ha : a < 2 ^ 32) :
    ulongSub a b = a - b := by
  unfold ulongSub ulongModulus
  omega

theorem ulongSub_self {a : Nat} (ha : a < 2 ^ 32) : ulongSub a a = 0 := by
  rw [ulongSub_of_le (le_refl a) ha]; simp

theorem loopBody_lastReading (i : Fin 7) (reading : Bool) (m1 m2 : Nat) (st : State) :
    (loopBody i reading m1 m2 st).1.lastReading i = reading := by
  simp [loopBody]

theorem loopBody_lastDebounceTime (i : Fin 7) (reading : Bool) (m1 m2 : Nat) (st : State) :
    (loopBody i reading m1 m2 st).1.lastDebounceTime i =
      if reading ≠ st.lastReading i then m1 else st.lastDebounceTime i := by
  unfold loopBody
  by_cases h1 : reading = st.lastReading i <;> simp [h1] <;> split_ifs <;> simp

theorem loopBody_stableState (i : Fin 7) (reading : Bool) (m1 m2 : Nat) (st : State) :
    (loopBody i reading m1 m2 st).1.stableState i =
      if ulongSub m2 (if reading ≠ st.lastReading i then m1 else st.lastDebounceTime i) > 300
      then reading else st.stableState i := by
  unfold loopBody debounceDelay
  by_cases h1 : reading = st.lastReading i <;> simp [h1] <;> split_ifs <;> simp_all

theorem loopBody_output (i : Fin 7) (reading : Bool) (m1 m2 : Nat) (st : State) :
    (loopBody i reading m1 m2 st).2 =
      if ulongSub m2 (if reading ≠ st.lastReading i then m1 else st.lastDebounceTime i) > 300 ∧
          reading = true ∧ st.stableState i = false
      then [(commands i).toString] else [] := by
  unfold loopBody debounceDelay
  by_cases h1 : reading = st.lastReading i <;> simp [h1] <;> split_ifs <;> simp_all

/-! ## Facts about polls and runs -/

theorem poll_lastReading (i : Fin 7) (st : State) (p : Sample) :
    (poll i st p).1.lastReading i = p.raw :=
  loopBody_lastReading i p.raw p.now p.now st

theorem poll_lastDebounceTime (i : Fin 7) (st : State) (p : Sample) :
    (poll i st p).1.lastDebounceTime i =
      if p.raw ≠ st.lastReading i then p.now else st.lastDebounceTime i :=
  loopBody_lastDebounceTime i p.raw p.now p.now st

theorem poll_stableState (i : Fin 7) (st : State) (p : Sample) :
    (poll i st p).1.stableState i =
      if ulongSub p.now (if p.raw ≠ st.lastReading i then p.now else st.lastDebounceTime i) > 300
      then p.raw else st.stableState i :=
  loopBody_stableState i p.raw p.now p.now st

theorem poll_output (i : Fin 7) (st : State) (p : Sample) :
    (poll i st p).2 =
      if ulongSub p.now (if p.raw ≠ st.lastReading i then p.now else st.lastDebounceTime i) > 300 ∧
          p.raw = true ∧ st.stableState i = false
      then [(commands i).toString] else [] :=
  loopBody_output i p.raw p.now p.now st

/-- A poll whose reading differs from the previous one restarts the window: it
neither prints nor changes `stableState[i]`. -/
theorem poll_of_raw_ne (i : Fin 7) (st : State) (p : Sample)
    (hne : p.raw ≠ st.lastReading i) (hnow : p.now < 2 ^ 32) :
    (poll i st p).2 = [] ∧ (poll i st p).1.stableState i = st.stableState i ∧
      (poll i st p).1.lastDebounceTime i = p.now := by
  rw [poll_output, poll_stableState, poll_lastDebounceTime, if_pos hne, ulongSub_self hnow]
  simp

/-- A poll whose reading equals the previous one keeps the stored timestamp and
compares the clock against it. -/
theorem poll_of_raw_eq (i : Fin 7) (st : State) (p : Sample)
    (heq : p.raw = st.lastReading i) (hle : st.lastDebounceTime i ≤ p.now)
    (hnow : p.now < 2 ^ 32) :
    (poll i st p).2 =
        (if p.now - st.lastDebounceTime i > 300 ∧ p.raw = true ∧ st.stableState i = false
         then [(commands i).toString] else []) ∧
      (poll i st p).1.stableState i =
        (if p.now - st.lastDebounceTime i > 300 then p.raw else st.stableState i) ∧
      (poll i st p).1.lastDebounceTime i = st.lastDebounceTime i := by
  rw [poll_output, poll_stableState, poll_lastDebounceTime, if_neg (not_not.mpr heq),
    ulongSub_of_le hle hnow]
  exact ⟨rfl, rfl, rfl⟩

/-- A poll can only move `stableState[i]` to the value it read. -/
theorem poll_stableState_cases (i : Fin 7) (st : State) (p : Sample) :
    (poll i st p).1.stableState i = p.raw ∨
      (poll i st p).1.stableState i = st.stableState i := by
  rw [poll_stableState]
  generalize (if p.raw ≠ st.lastReading i then p.now else st.lastDebounceTime i) = t
  by_cases h : ulongSub p.now t > 300
  · rw [if_pos h]; exact Or.inl rfl
  · rw [if_neg h]; exact Or.inr rfl

/-- A poll that changes `stableState[i]` read the same level as the previous
poll, read the new stable level, and saw the window exceeded. -/
theorem poll_change (i : Fin 7) (st : State) (p : Sample) (hnow : p.now < 2 ^ 32)
    (hchange : (poll i st p).1.stableState i ≠ st.stableState i) :
    p.raw = st.lastReading i ∧ (poll i st p).1.stableState i = p.raw ∧
      ulongSub p.now (st.lastDebounceTime i) > 300 := by
  by_cases heq : p.raw = st.lastReading i
  · rw [poll_stableState, if_neg (not_not.mpr heq)] at hchange ⊢
    by_cases hgt : ulongSub p.now (st.lastDebounceTime i) > 300
    · rw [if_pos hgt]
      exact ⟨heq, rfl, hgt⟩
    · rw [if_neg hgt] at hchange
      exact absurd rfl hchange
  · exact absurd (poll_of_raw_ne i st p heq hnow).2.1 hchange

theorem runState_nil (i : Fin 7) (st : State) : runState i st [] = st := rfl

theorem runState_cons (i : Fin 7) (st : State) (p : Sample) (ps : List Sample) :
    runState i st (p :: ps) = runState i (poll i st p).1 ps := rfl

theorem runState_append (i : Fin 7) (st : State) (ps qs : List Sample) :
    runState i st (ps ++ qs) = runState i (runState i st ps) qs := by
  unfold runState
  rw [List.foldl_append]

theorem runState_concat (i : Fin 7) (st : State) (ps : List Sample) (p : Sample) :
    runState i st (ps ++ [p]) = (poll i (runState i st ps) p).1 := by
  rw [runState_append]; rfl

theorem outputs_nil (i : Fin 7) (st : State) : outputs i st [] = [] := rfl

theorem outputs_cons (i : Fin 7) (st : State) (p : Sample) (ps : List Sample) :
    outputs i st (p :: ps) = (poll i st p).2 :: outputs i (poll i st p).1 ps := rfl

theorem stables_nil (i : Fin 7) (st : State) : stables i st [] = [] := rfl

theorem stables_cons (i : Fin 7) (st : State) (p : Sample) (ps : List Sample) :
    stables i st (p :: ps) =
      (poll i st p).1.stableState i :: stables i (poll i st p).1 ps := rfl

/-- While the pin is held high on a channel whose stable state is already
high, nothing is printed and the stable state stays high. -/
theorem poll_high_of_stable (i : Fin 7) (st : State) (p : Sample)
    (hstable : st.stableState i = true) (hraw : p.raw = true) :
    (poll i st p).2 = [] ∧ (poll i st p).1.stableState i = true := by
  rw [poll_output, poll_stableState]
  constructor
  · rw [if_neg]
    intro h
    rw [hstable] at h
    exact absurd h.2.2 (by decide)
  · generalize (if p.raw ≠ st.lastReading i then p.now else st.lastDebounceTime i) = t
    by_cases h : ulongSub p.now t > 300
    · rw [if_pos h]; exact hraw
    · rw [if_neg h]; exact hstable

theorem trace_high_of_stable (i : Fin 7) :
    ∀ (ps : List Sample) (st : State), st.stableState i = true →
      (∀ p ∈ ps, p.raw = true) →
      ∀ r ∈ trace i st ps, r.2 = [] ∧ r.1.stableState i = true := by
  intro ps
  induction ps with
  | nil => intro st _ _ r hr; simp [trace] at hr
  | cons p ps ih =>
    intro st hstable hraw r hr
    have hp := poll_high_of_stable i st p hstable (hraw p (List.mem_cons_self _ _))
    simp only [trace, List.mem_cons] at hr
    rcases hr with rfl | hr
    · exact hp
    · exact ih (poll i st p).1 hp.2 (fun q hq => hraw q (List.mem_cons_of_mem _ hq)) r hr

theorem outputs_stables_high_of_stable (i : Fin 7) :
    ∀ (ps : List Sample) (st : State), st.stableState i = true →
      (∀ p ∈ ps, p.raw = true) →
      outputs i st ps = ps.map (fun _ => []) ∧ stables i st ps = ps.map (fun _ => true) := by
  intro ps
  induction ps with
  | nil => intro st _ _; exact ⟨rfl, rfl⟩
  | cons p ps ih =>
    intro st hstable hraw
    have hp := poll_high_of_stable i st p hstable (hraw p (List.mem_cons_self _ _))
    have h := ih (poll i st p).1 hp.2 (fun q hq => hraw q (List.mem_cons_of_mem _ hq))
    rw [outputs_cons, stables_cons, h.1, h.2, hp.1, hp.2]
    exact ⟨rfl, rfl⟩

/-- Between a poll after which the stable state is high and a later poll that
prints, some poll in between takes the stable state from high to low. -/
theorem exists_release_between (i : Fin 7) :
    ∀ (mid : List Sample) (s : State) (q : Sample), s.stableState i = true →
      (poll i (runState i s mid) q).2 = [(commands i).toString] →
      ∃ a x b, mid = a ++ x :: b ∧ (runState i s a).stableState i = true ∧
        (poll i (runState i s a) x).1.stableState i = false := by
  intro mid
  induction mid with
  | nil =>
    intro s q hs hq
    rw [runState_nil, poll_output] at hq
    rw [if_neg] at hq
    · exact absurd hq (by simp)
    · intro h
      rw [hs] at h
      exact absurd h.2.2 (by decide)
  | cons x mid ih =>
    intro s q hs hq
    cases hx : (poll i s x).1.stableState i with
    | false => exact ⟨[], x, mid, rfl, hs, hx⟩
    | true =>
      rw [runState_cons] at hq
      obtain ⟨a, y, b, hmid, ha, hy⟩ := ih (poll i s x).1 q hx hq
      refine ⟨x :: a, y, b, ?_, ?_, ?_⟩
      · rw [hmid]; rfl
      · rw [runState_cons]; exact ha
      · rw [runState_cons]; exact hy

/-- Phase of a press in which the pin has been read high since time `T` and
the stable state is still low: the polls up to `T + 300` change nothing, the
first poll after that prints the symbol, and the later ones print nothing. -/
theorem hold_high_phase (i : Fin 7) (T : Nat) :
    ∀ (ps : List Sample) (st : State), st.stableState i = false →
      st.lastReading i = true → st.lastDebounceTime i = T →
      (∀ p ∈ ps, p.raw = true ∧ T ≤ p.now ∧ p.now < 2 ^ 32) →
      (∃ p ∈ ps, T + 301 ≤ p.now) →
      ∃ early p late, ps = early ++ p :: late ∧
        (∀ q ∈ early, q.now ≤ T + 300) ∧ T + 301 ≤ p.now ∧
        outputs i st ps =
          early.map (fun _ => []) ++ [(commands i).toString] :: late.map (fun _ => []) ∧
        stables i st ps =
          early.map (fun _ => false) ++ true :: late.map (fun _ => true) := by
  intro ps
  induction ps with
  | nil =>
    intro st _ _ _ _ hex
    obtain ⟨p, hp, _⟩ := hex
    simp at hp
  | cons x ps ih =>
    intro st hstable hlast htime hall hex
    obtain ⟨hxraw, hxT, hxnow⟩ := hall x (List.mem_cons_self _ _)
    have hrest : ∀ p ∈ ps, p.raw = true ∧ T ≤ p.now ∧ p.now < 2 ^ 32 :=
      fun p hp => hall p (List.mem_cons_of_mem _ hp)
    have hstep := poll_of_raw_eq i st x (hxraw.trans hlast.symm) (htime ▸ hxT) hxnow
    rw [htime, hstable] at hstep
    obtain ⟨hout, hst, htm⟩ := hstep
    have hlr : (poll i st x).1.lastReading i = true := (poll_lastReading i st x).trans hxraw
    by_cases hx : T + 301 ≤ x.now
    · have hgt : x.now - T > 300 := by omega
      rw [if_pos ⟨hgt, hxraw, rfl⟩] at hout
      rw [if_pos hgt] at hst
      have hlate := outputs_stables_high_of_stable i ps (poll i st x).1 (hst.trans hxraw)
        (fun p hp => (hrest p hp).1)
      refine ⟨[], x, ps, rfl, by simp, hx, ?_, ?_⟩
      · rw [outputs_cons, hout, hlate.1]; rfl
      · rw [stables_cons, hst, hxraw, hlate.2]; rfl
    · have hgt : ¬ (x.now - T > 300) := by omega
      rw [if_neg (fun h => hgt h.1)] at hout
      rw [if_neg hgt] at hst
      have hex' : ∃ p ∈ ps, T + 301 ≤ p.now := by
        obtain ⟨p, hp, hpT⟩ := hex
        rcases List.mem_cons.mp hp with rfl | hp'
        · exact absurd hpT hx
        · exact ⟨p, hp', hpT⟩
      obtain ⟨early, p, late, hps, hearly, hp, ho, hs⟩ :=
        ih (poll i st x).1 hst hlr htm hrest hex'
      refine ⟨x :: early, p, late, ?_, ?_, hp, ?_, ?_⟩
      · rw [hps]; rfl
      · intro q hq
        rcases List.mem_cons.mp hq with rfl | hq'
        · omega
        · exact hearly q hq'
      · rw [outputs_cons, hout, ho]; rfl
      · rw [stables_cons, hst, hs]; rfl

theorem trace_append (i : Fin 7) :
    ∀ (ps qs : List Sample) (st : State),
      trace i st (ps ++ qs) = trace i st ps ++ trace i (runState i st ps) qs := by
  intro ps
  induction ps with
  | nil => intro qs st; rfl
  | cons p ps ih =>
    intro qs st
    rw [List.cons_append, trace, ih, runState_cons]
    rfl

theorem outputs_append (i : Fin 7) (ps qs : List Sample) (st : State) :
    outputs i st (ps ++ qs) = outputs i st ps ++ outputs i (runState i st ps) qs := by
  unfold outputs
  rw [trace_append, List.map_append]

theorem stables_append (i : Fin 7) (ps qs : List Sample) (st : State) :
    stables i st (ps ++ qs) = stables i st ps ++ stables i (runState i st ps) qs := by
  unfold stables
  rw [trace_append, List.map_append]

/-- In a list sorted by time, no element is later than the last one. -/
theorem now_le_getLast (l : List Sample) (hne : l ≠ [])
    (hsorted : l.Pairwise (fun a b => a.now ≤ b.now)) :
    ∀ x ∈ l, x.now ≤ (l.getLast hne).now := by
  intro x hx
  have hsplit := List.dropLast_append_getLast hne
  rw [← hsplit] at hx hsorted
  rcases List.mem_append.mp hx with h | h
  · exact (List.pairwise_append.mp hsorted).2.2 x h _ (List.mem_singleton_self _)
  · rw [List.mem_singleton.mp h]

/-- Polls confined to a window shorter than the debounce delay that starts at
`t0`, on a channel whose stable state is low and whose stored timestamp, if the
last reading was high, lies in the window: nothing is printed and the stable
state stays low. -/
theorem suppression_phase (i : Fin 7) (t0 : Nat) :
    ∀ (ps : List Sample) (st : State) (tl : Nat), st.stableState i = false →
      (st.lastReading i = false ∨ (t0 ≤ st.lastDebounceTime i ∧ st.lastDebounceTime i ≤ tl)) →
      t0 ≤ tl →
      (∀ p ∈ ps, tl ≤ p.now ∧ p.now < t0 + 300 ∧ p.now < 2 ^ 32) →
      ps.Pairwise (fun a b => a.now ≤ b.now) →
      ∀ r ∈ trace i st ps, r.2 = [] ∧ r.1.stableState i = false := by
  intro ps
  induction ps with
  | nil => intro st tl _ _ _ _ _ r hr; simp [trace] at hr
  | cons x ps ih =>
    intro st tl hstable hinv ht0 hall hsorted r hr
    obtain ⟨hxtl, hxspan, hxnow⟩ := hall x (List.mem_cons_self _ _)
    have hrest : ∀ p ∈ ps, x.now ≤ p.now ∧ p.now < t0 + 300 ∧ p.now < 2 ^ 32 :=
      fun p hp => ⟨(List.pairwise_cons.mp hsorted).1 p hp,
        (hall p (List.mem_cons_of_mem _ hp)).2⟩
    have hsorted' := (List.pairwise_cons.mp hsorted).2
    have hstep : ((poll i st x).2 = [] ∧ (poll i st x).1.stableState i = false) ∧
        ((poll i st x).1.lastReading i = false ∨
          (t0 ≤ (poll i st x).1.lastDebounceTime i ∧
            (poll i st x).1.lastDebounceTime i ≤ x.now)) := by
      by_cases heq : x.raw = st.lastReading i
      · rcases hinv with hlow | ⟨hlo, hhi⟩
        · have hxraw : x.raw = false := heq.trans hlow
          refine ⟨⟨?_, ?_⟩, Or.inl ((poll_lastReading i st x).trans hxraw)⟩
          · rw [poll_output, if_neg]
            intro h
            rw [hxraw] at h
            exact absurd h.2.1 (by decide)
          · rcases poll_stableState_cases i st x with h | h
            · exact h.trans hxraw
            · exact h.trans hstable
        · obtain ⟨hout, hst, htm⟩ := poll_of_raw_eq i st x heq (by omega) hxnow
          have hgt : ¬ (x.now - st.lastDebounceTime i > 300) := by omega
          rw [if_neg (fun h => hgt h.1)] at hout
          rw [if_neg hgt] at hst
          refine ⟨⟨hout, hst.trans hstable⟩, Or.inr ?_⟩
          rw [htm]
          exact ⟨hlo, by omega⟩
      · obtain ⟨hout, hst, htm⟩ := poll_of_raw_ne i st x heq hxnow
        refine ⟨⟨hout, hst.trans hstable⟩, Or.inr ?_⟩
        rw [htm]
        exact ⟨by omega, le_refl _⟩
    simp only [trace, List.mem_cons] at hr
    rcases hr with rfl | hr
    · exact hstep.1
    · exact ih (poll i st x).1 x.now hstep.1.2 hstep.2 (by omega) hrest hsorted' r hr

/-- Invariant kept after a poll at time `P` changed the stable state: either
the last reading agrees with the stable state, or the stored timestamp was
taken at a poll not earlier than `P` (and not later than `Q`, a time no poll
considered exceeds). -/
theorem window_invariant_step (i : Fin 7) (P Q : Nat) (s : State) (x : Sample)
    (hinv : s.lastReading i = s.stableState i ∨
      (P ≤ s.lastDebounceTime i ∧ s.lastDebounceTime i ≤ Q))
    (hP : P ≤ x.now) (hQ : x.now ≤ Q) (hnow : x.now < 2 ^ 32) :
    (poll i s x).1.lastReading i = (poll i s x).1.stableState i ∨
      (P ≤ (poll i s x).1.lastDebounceTime i ∧ (poll i s x).1.lastDebounceTime i ≤ Q) := by
  by_cases heq : x.raw = s.lastReading i
  · rcases hinv with hagree | hbounds
    · left
      rw [poll_lastReading]
      rcases poll_stableState_cases i s x with h | h
      · exact h.symm
      · rw [h, ← hagree]; exact heq
    · right
      rw [poll_lastDebounceTime, if_neg (not_not.mpr heq)]
      exact hbounds
  · right
    rw [(poll_of_raw_ne i s x heq hnow).2.2]
    exact ⟨hP, hQ⟩

theorem window_invariant_run (i : Fin 7) (P Q : Nat) :
    ∀ (mid : List Sample) (s : State),
      (s.lastReading i = s.stableState i ∨
        (P ≤ s.lastDebounceTime i ∧ s.lastDebounceTime i ≤ Q)) →
      (∀ x ∈ mid, P ≤ x.now ∧ x.now ≤ Q ∧ x.now < 2 ^ 32) →
      ((runState i s mid).lastReading i = (runState i s mid).stableState i ∨
        (P ≤ (runState i s mid).lastDebounceTime i ∧
          (runState i s mid).lastDebounceTime i ≤ Q)) := by
  intro mid
  induction mid with
  | nil => intro s hinv _; exact hinv
  | cons x mid ih =>
    intro s hinv hall
    obtain ⟨hP, hQ, hnow⟩ := hall x (List.mem_cons_self _ _)
    rw [runState_cons]
    exact ih (poll i s x).1 (window_invariant_step i P Q s x hinv hP hQ hnow)
      (fun y hy => hall y (List.mem_cons_of_mem _ hy))

/-- Invariant of every run from the `setup()` state: either the channel has
only ever read low (and its stable state is low), or the stored timestamp is
the time of a poll of the run from which on every poll read the level now in
`lastReading[i]`. -/
theorem streak_invariant (i : Fin 7) (pre : List Sample) :
    ((runState i setup.1 pre).lastReading i = false ∧
        (runState i setup.1 pre).stableState i = false) ∨
      ∃ a q b, pre = a ++ q :: b ∧ q.now = (runState i setup.1 pre).lastDebounceTime i ∧
        ∀ x ∈ q :: b, x.raw = (runState i setup.1 pre).lastReading i := by
  induction pre using List.reverseRecOn with
  | nil => exact Or.inl ⟨rfl, rfl⟩
  | append_singleton pre x ih =>
    rw [runState_concat]
    by_cases heq : x.raw = (runState i setup.1 pre).lastReading i
    · rcases ih with ⟨hlow, hstable⟩ | ⟨a, q, b, hpre, hq, hall⟩
      · left
        have hxraw : x.raw = false := heq.trans hlow
        refine ⟨(poll_lastReading i _ x).trans hxraw, ?_⟩
        rcases poll_stableState_cases i (runState i setup.1 pre) x with h | h
        · exact h.trans hxraw
        · exact h.trans hstable
      · right
        refine ⟨a, q, b ++ [x], ?_, ?_, ?_⟩
        · rw [hpre]; simp
        · rw [poll_lastDebounceTime, if_neg (not_not.mpr heq)]; exact hq
        · intro y hy
          rw [poll_lastReading]
          rw [← List.cons_append, List.mem_append] at hy
          rcases hy with hy | hy
          · exact (hall y hy).trans heq.symm
          · rw [List.mem_singleton.mp hy]
    · right
      refine ⟨pre, x, [], rfl, ?_, ?_⟩
      · rw [poll_lastDebounceTime, if_pos heq]
      · intro y hy
        rw [poll_lastReading, List.mem_singleton.mp hy]

/-- Polls that are pairwise at most `0` ms after their predecessor never get
past the time of the first one. -/
theorem now_le_head_of_chain_zero :
    ∀ (ps : List Sample) (p0 : Sample),
      List.Chain' (fun a b : Sample => b.now ≤ a.now + 0) (p0 :: ps) →
      ∀ q ∈ p0 :: ps, q.now ≤ p0.now := by
  intro ps
  induction ps with
  | nil =>
    intro p0 _ q hq
    rw [List.mem_singleton.mp hq]
  | cons x ps ih =>
    intro p0 hchain q hq
    obtain ⟨hx, hrest⟩ := List.chain'_cons.mp hchain
    rcases List.mem_cons.mp hq with rfl | hq'
    · exact le_refl _
    · have := ih x hrest q hq'
      omega

/-- In a run from the `setup()` state the stored timestamp is either still the
initial `0` or the time of one of the polls of the run. -/
theorem lastDebounceTime_zero_or_mem (i : Fin 7) (pre : List Sample) :
    (runState i setup.1 pre).lastDebounceTime i = 0 ∨
      ∃ q ∈ pre, q.now = (runState i setup.1 pre).lastDebounceTime i := by
  induction pre using List.reverseRecOn with
  | nil => exact Or.inl rfl
  | append_singleton pre x ih =>
    rw [runState_concat, poll_lastDebounceTime]
    by_cases hne : x.raw ≠ (runState i setup.1 pre).lastReading i
    · rw [if_pos hne]
      exact Or.inr ⟨x, by simp, rfl⟩
    · rw [if_neg hne]
      rcases ih with h0 | ⟨q, hq, hqL⟩
      · exact Or.inl h0
      · exact Or.inr ⟨q, List.mem_append_left _ hq, hqL⟩

/-! ## Facts about the seven passes of `loop()` -/

/-- A pass for index `j` writes no cell of another channel. -/
theorem loopBody_frame (i j : Fin 7) (hij : i ≠ j) (reading : Bool) (m1 m2 : Nat)
    (st : State) : cells (loopBody j reading m1 m2 st).1 i = cells st i := by
  unfold loopBody cells
  by_cases h1 : reading = st.lastReading j <;> simp [h1, Function.update_noteq hij] <;>
    split_ifs <;> simp [Function.update_noteq hij]

/-- The cells of channel `i` after its pass, in terms of its cells before. -/
theorem cells_loopBody (i : Fin 7) (reading : Bool) (m1 m2 : Nat) (st : State) :
    cells (loopBody i reading m1 m2 st).1 i =
      ((if ulongSub m2 (if reading ≠ (cells st i).2.1 then m1 else (cells st i).2.2) > 300
          then reading else (cells st i).1),
        reading,
        (if reading ≠ (cells st i).2.1 then m1 else (cells st i).2.2)) := by
  unfold cells
  rw [loopBody_stableState, loopBody_lastReading, loopBody_lastDebounceTime]

/-- The lines printed by the pass of channel `i`, in terms of its cells before. -/
theorem output_loopBody (i : Fin 7) (reading : Bool) (m1 m2 : Nat) (st : State) :
    (loopBody i reading m1 m2 st).2 =
      if ulongSub m2 (if reading ≠ (cells st i).2.1 then m1 else (cells st i).2.2) > 300 ∧
          reading = true ∧ (cells st i).1 = false
      then [(commands i).toString] else [] := by
  unfold cells
  rw [loopBody_output]

/-- The pass of channel `i` reads nothing but the cells of channel `i`. -/
theorem loopBody_local (i : Fin 7) (reading : Bool) (m1 m2 : Nat) (st st' : State)
    (hcells : cells st i = cells st' i) :
    cells (loopBody i reading m1 m2 st).1 i = cells (loopBody i reading m1 m2 st').1 i ∧
      (loopBody i reading m1 m2 st).2 = (loopBody i reading m1 m2 st').2 := by
  rw [cells_loopBody, cells_loopBody, output_loopBody, output_loopBody, hcells]
  exact ⟨rfl, rfl⟩

/-- The passes from index `k` on leave the channels below `k` alone. -/
theorem loopFrom_cells_of_lt (digitalRead : Nat → Bool) (now : Nat) :
    ∀ (n k : Nat) (st : State) (i : Fin 7), i.val < k →
      cells (loopFrom digitalRead now n k st).1 i = cells st i := by
  intro n
  induction n with
  | zero => intro k st i _; rfl
  | succ n ih =>
    intro k st i hik
    unfold loopFrom
    by_cases hk : k < 7
    · rw [dif_pos hk]
      have hne : i ≠ ⟨k, hk⟩ := fun h => by rw [h] at hik; exact Nat.lt_irrefl _ hik
      exact (ih (k + 1) _ i (Nat.lt_succ_of_lt hik)).trans (loopBody_frame i ⟨k, hk⟩ hne _ _ _ st)
    · rw [dif_neg hk]

/-- After the passes `k, ..., k + n - 1`, each of these channels holds what its
own pass computes from the cells it had before. -/
theorem loopFrom_cells (digitalRead : Nat → Bool) (now : Nat) :
    ∀ (n k : Nat) (st : State) (i : Fin 7), k ≤ i.val → i.val < k + n →
      cells (loopFrom digitalRead now n k st).1 i =
        cells (loopBody i (digitalRead (buttonPins i)) now now st).1 i := by
  intro n
  induction n with
  | zero => intro k st i h1 h2; omega
  | succ n ih =>
    intro k st i hki hik
    have hk : k < 7 := lt_of_le_of_lt hki i.isLt
    unfold loopFrom
    rw [dif_pos hk]
    by_cases heq : i.val = k
    · have hi : i = ⟨k, hk⟩ := Fin.ext heq
      subst hi
      exact loopFrom_cells_of_lt digitalRead now n (k + 1) _ ⟨k, hk⟩ (Nat.lt_succ_self k)
    · have hne : i ≠ ⟨k, hk⟩ := fun h => heq (by rw [h])
      have hstep := ih (k + 1) (loopBody ⟨k, hk⟩ (digitalRead (buttonPins ⟨k, hk⟩)) now now st).1
        i (by omega) (by omega)
      exact hstep.trans
        (loopBody_local i _ now now _ st (loopBody_frame i ⟨k, hk⟩ hne _ _ _ st)).1

/-- Lines printed by the passes `k, ..., 6`: the concatenation, in index order,
of what each channel's own pass prints from the cells it had before. -/
theorem loopFrom_output (digitalRead : Nat → Bool) (now : Nat) (st0 : State) :
    ∀ (n k : Nat) (st : State), k + n = 7 →
      (∀ i : Fin 7, k ≤ i.val → cells st i = cells st0 i) →
      (loopFrom digitalRead now n k st).2 =
        ((List.finRange 7).drop k).flatMap
          (fun i => (poll i st0 ⟨digitalRead (buttonPins i), now⟩).2) := by
  intro n
  induction n with
  | zero =>
    intro k st hk _
    rw [List.drop_eq_nil_of_le (by simp; omega)]
    rfl
  | succ n ih =>
    intro k st hkn hagree
    have hk : k < 7 := by omega
    have hdrop : (List.finRange 7).drop k = ⟨k, hk⟩ :: (List.finRange 7).drop (k + 1) := by
      rw [List.drop_eq_getElem_cons (by simp; exact hk)]
      simp
    unfold loopFrom
    rw [dif_pos hk, hdrop, List.flatMap_cons]
    have hhead := (loopBody_local ⟨k, hk⟩ (digitalRead (buttonPins ⟨k, hk⟩)) now now st st0
      (hagree ⟨k, hk⟩ (le_refl k))).2
    have htail := ih (k + 1)
      (loopBody ⟨k, hk⟩ (digitalRead (buttonPins ⟨k, hk⟩)) now now st).1 (by omega)
      (fun i hi => by
        have hne : i ≠ ⟨k, hk⟩ := fun h => by rw [h] at hi; exact Nat.lt_irrefl _ hi
        exact (loopBody_frame i ⟨k, hk⟩ hne _ _ _ st).trans (hagree i (by omega)))
    show _ ++ _ = _
    rw [hhead, htail]
    rfl

/-- Lines printed by one call of `loop()`. -/
theorem loop_output (digitalRead : Nat → Bool) (now : Nat) (st : State) :
    (loop digitalRead now st).2 =
      (List.finRange 7).flatMap (fun i => (poll i st ⟨digitalRead (buttonPins i), now⟩).2) :=
  loopFrom_output digitalRead now st 7 0 st rfl (fun _ _ => rfl)

/-- Cells of channel `i` after one call of `loop()`. -/
theorem loop_cells (digitalRead : Nat → Bool) (now : Nat) (st : State) (i : Fin 7) :
    cells (loop digitalRead now st).1 i =
      cells (poll i st ⟨digitalRead (buttonPins i), now⟩).1 i :=
  loopFrom_cells digitalRead now 7 0 st i (Nat.zero_le _) (by have := i.isLt; omega)

/-- Keeping the elements that satisfy `p` and mapping `f` over them is the same
as replacing every element by `[f a]` or `[]`. -/
theorem filter_map_eq_flatMap {α β : Type} (p : α → Bool) (f : α → β) :
    ∀ l : List α, (l.filter p).map f = l.flatMap (fun a => if p a then [f a] else []) := by
  intro l
  induction l with
  | nil => rfl
  | cons a l ih =>
    rw [List.flatMap_cons, List.filter_cons]
    by_cases h : p a = true
    · rw [if_pos h, if_pos h, List.map_cons, ih]; rfl
    · rw [if_neg h, if_neg h, ih]; rfl

/-- A poll prints either nothing or exactly the symbol of its channel. -/
theorem poll_output_eq_ite (i : Fin 7) (st : State) (p : Sample) :
    (poll i st p).2 =
      if decide ((poll i st p).2 = [(commands i).toString]) = true
      then [(commands i).toString] else [] := by
  by_cases h : (poll i st p).2 = [(commands i).toString]
  · rw [if_pos (decide_eq_true h)]; exact h
  · rw [if_neg (by simpa using h)]
    rw [poll_output] at h ⊢
    split_ifs at h ⊢ <;> first | rfl | exact absurd rfl h

theorem finRange_seven : List.finRange 7 = [0, 1, 2, 3, 4, 5, 6] := by decide

/-! ## The claims -/

/-- C1: for every channel state and every input `(raw, now)` with
`lastDebounceTime[i] ≤ now` (and `now` an `unsigned long`), one pass of the loop
body with both `millis()` reads equal to `now` prints the channel's symbol iff
`raw` is true, `stableState[i]` was false and `now - t' > 300`, where `t'` is
`now` if `raw` differs from `lastReading[i]` and `lastDebounceTime[i]`
otherwise; it prints nothing in every other case; and the new `stableState[i]`
is `raw` when `now - t' > 300` and the old value otherwise. -/
theorem poll_emits_iff (i : Fin 7) (st : State) (p : Sample)
    (hle : st.lastDebounceTime i ≤ p.now) (hnow : p.now < 2 ^ 32) :
    ((poll i st p).2 = [(commands i).toString] ↔
      (p.raw = true ∧ st.stableState i = false ∧
        p.now - (if p.raw ≠ st.lastReading i then p.now else st.lastDebounceTime i) > 300)) ∧
    ((poll i st p).2 = [] ∨ (poll i st p).2 = [(commands i).toString]) ∧
    (poll i st p).1.stableState i =
      (if p.now - (if p.raw ≠ st.lastReading i then p.now else st.lastDebounceTime i) > 300
       then p.raw else st.stableState i) := by
  have hsub : ulongSub p.now
      (if p.raw ≠ st.lastReading i then p.now else st.lastDebounceTime i) =
      p.now - (if p.raw ≠ st.lastReading i then p.now else st.lastDebounceTime i) := by
    apply ulongSub_of_le _ hnow
    split_ifs <;> omega
  unfold poll
  rw [loopBody_output, loopBody_stableState, hsub]
  generalize (if p.raw ≠ st.lastReading i then p.now else st.lastDebounceTime i) = t
  refine ⟨?_, ?_, rfl⟩
  · by_cases h : p.now - t > 300 ∧ p.raw = true ∧ st.stableState i = false
    · rw [if_pos h]
      exact ⟨fun _ => ⟨h.2.1, h.2.2, h.1⟩, fun _ => rfl⟩
    · rw [if_neg h]
      constructor
      · intro hc
        exact absurd hc (by simp)
      · intro hc
        exact absurd ⟨hc.2.2, hc.1, hc.2.1⟩ h
  · by_cases h : p.now - t > 300 ∧ p.raw = true ∧ st.stableState i = false
    · rw [if_pos h]
      exact Or.inr rfl
    · rw [if_neg h]
      exact Or.inl rfl

theorem poll_emits_iff_witness :
    ((poll 0 setup.1 ⟨true, 301⟩).2 = [(commands 0).toString] ↔
      ((true = true) ∧ setup.1.stableState 0 = false ∧
        301 - (if true ≠ setup.1.lastReading 0 then 301 else setup.1.lastDebounceTime 0)
          > 300)) ∧
    ((poll 0 setup.1 ⟨true, 301⟩).2 = [] ∨
      (poll 0 setup.1 ⟨true, 301⟩).2 = [(commands 0).toString]) ∧
    (poll 0 setup.1 ⟨true, 301⟩).1.stableState 0 =
      (if 301 - (if true ≠ setup.1.lastReading 0 then 301
          else setup.1.lastDebounceTime 0) > 300
       then true else setup.1.stableState 0) :=
  poll_emits_iff 0 setup.1 ⟨true, 301⟩ (by decide) (by decide)

/-- C2 (P3): from a channel state with `stableState[i] = false` and
`lastReading[i] = false`, for every sequence of polls at non-decreasing
`unsigned long` times, all reading high, whose first poll is at time `T` and
which contains a poll at a time `≥ T + 301`: the sequence splits as
`early ++ p :: late` where every poll of `early` is at a time `≤ T + 300`, and
`p` and every poll of `late` are at times `≥ T + 301`; the polls of `early`
print nothing and leave the stable state false, `p` prints the channel's
symbol, the polls of `late` print nothing, and the stable state is true after
`p` and after every poll of `late`. -/
theorem validated_edge_timing (i : Fin 7) (st : State) (p0 : Sample) (ps : List Sample)
    (hstable : st.stableState i = false) (hlast : st.lastReading i = false)
    (hraw : ∀ p ∈ p0 :: ps, p.raw = true)
    (hsorted : (p0 :: ps).Pairwise (fun a b => a.now ≤ b.now))
    (hrange : ∀ p ∈ p0 :: ps, p.now < 2 ^ 32)
    (hlate : ∃ p ∈ p0 :: ps, p0.now + 301 ≤ p.now) :
    ∃ early p late, p0 :: ps = early ++ p :: late ∧
      (∀ q ∈ early, q.now ≤ p0.now + 300) ∧ p0.now + 301 ≤ p.now ∧
      (∀ q ∈ late, p0.now + 301 ≤ q.now) ∧
      outputs i st (p0 :: ps) =
        early.map (fun _ => []) ++ [(commands i).toString] :: late.map (fun _ => []) ∧
      stables i st (p0 :: ps) =
        early.map (fun _ => false) ++ true :: late.map (fun _ => true) := by
  have hp0raw : p0.raw = true := hraw p0 (List.mem_cons_self _ _)
  have hp0now : p0.now < 2 ^ 32 := hrange p0 (List.mem_cons_self _ _)
  have hne : p0.raw ≠ st.lastReading i := by rw [hp0raw, hlast]; decide
  obtain ⟨hout, hst, htm⟩ := poll_of_raw_ne i st p0 hne hp0now
  have hlr : (poll i st p0).1.lastReading i = true := (poll_lastReading i st p0).trans hp0raw
  have hge : ∀ p ∈ ps, p0.now ≤ p.now := (List.pairwise_cons.mp hsorted).1
  have hall : ∀ p ∈ ps, p.raw = true ∧ p0.now ≤ p.now ∧ p.now < 2 ^ 32 :=
    fun p hp => ⟨hraw p (List.mem_cons_of_mem _ hp), hge p hp,
      hrange p (List.mem_cons_of_mem _ hp)⟩
  have hex : ∃ p ∈ ps, p0.now + 301 ≤ p.now := by
    obtain ⟨p, hp, hpT⟩ := hlate
    rcases List.mem_cons.mp hp with rfl | hp'
    · omega
    · exact ⟨p, hp', hpT⟩
  obtain ⟨early, p, late, hps, hearly, hp, ho, hs⟩ :=
    hold_high_phase i p0.now ps (poll i st p0).1 (hst.trans hstable) hlr htm hall hex
  have hsorted' : (p :: late).Pairwise (fun a b => a.now ≤ b.now) := by
    have h := (List.pairwise_cons.mp hsorted).2
    rw [hps] at h
    exact (List.pairwise_append.mp h).2.1
  refine ⟨p0 :: early, p, late, ?_, ?_, hp, ?_, ?_, ?_⟩
  · rw [hps]; rfl
  · intro q hq
    rcases List.mem_cons.mp hq with rfl | hq'
    · omega
    · exact hearly q hq'
  · intro q hq
    exact le_trans hp ((List.pairwise_cons.mp hsorted').1 q hq)
  · rw [outputs_cons, hout, ho]; rfl
  · rw [stables_cons, hst, hstable, hs]; rfl

theorem validated_edge_timing_witness :
    ∃ early p late,
      ([⟨true, 10⟩, ⟨true, 200⟩, ⟨true, 310⟩, ⟨true, 311⟩, ⟨true, 900⟩] : List Sample) =
        early ++ p :: late ∧
      (∀ q ∈ early, q.now ≤ 10 + 300) ∧ 10 + 301 ≤ p.now ∧
      (∀ q ∈ late, 10 + 301 ≤ q.now) ∧
      outputs 0 setup.1 [⟨true, 10⟩, ⟨true, 200⟩, ⟨true, 310⟩, ⟨true, 311⟩, ⟨true, 900⟩] =
        early.map (fun _ => []) ++ [(commands 0).toString] :: late.map (fun _ => []) ∧
      stables 0 setup.1 [⟨true, 10⟩, ⟨true, 200⟩, ⟨true, 310⟩, ⟨true, 311⟩, ⟨true, 900⟩] =
        early.map (fun _ => false) ++ true :: late.map (fun _ => true) :=
  validated_edge_timing 0 setup.1 ⟨true, 10⟩
    [⟨true, 200⟩, ⟨true, 310⟩, ⟨true, 311⟩, ⟨true, 900⟩]
    (by decide) (by decide) (by decide) (by decide) (by decide) (by decide)

/-- C3 (P2): from a channel state with `stableState[i] = false` and
`lastReading[i] = false`, for every sequence of polls with arbitrary raw values
at non-decreasing `unsigned long` times whose last time minus first time is
less than 300, no poll prints anything and `stableState[i]` is false after every
poll. -/
theorem debounce_suppression (i : Fin 7) (st : State) (p0 : Sample) (ps : List Sample)
    (hstable : st.stableState i = false) (hlast : st.lastReading i = false)
    (hsorted : (p0 :: ps).Pairwise (fun a b => a.now ≤ b.now))
    (hrange : ∀ p ∈ p0 :: ps, p.now < 2 ^ 32)
    (hspan : ((p0 :: ps).getLast (List.cons_ne_nil p0 ps)).now - p0.now < 300) :
    ∀ r ∈ trace i st (p0 :: ps), r.2 = [] ∧ r.1.stableState i = false := by
  have hlastle := now_le_getLast (p0 :: ps) (List.cons_ne_nil p0 ps) hsorted
  have hfirst : ∀ p ∈ p0 :: ps, p0.now ≤ p.now := by
    intro p hp
    rcases List.mem_cons.mp hp with rfl | hp'
    · exact le_refl _
    · exact (List.pairwise_cons.mp hsorted).1 p hp'
  have hp0 := hlastle p0 (List.mem_cons_self _ _)
  refine suppression_phase i p0.now (p0 :: ps) st p0.now hstable (Or.inl hlast) (le_refl _)
    ?_ hsorted
  intro p hp
  have h1 := hlastle p hp
  exact ⟨hfirst p hp, by omega, hrange p hp⟩

theorem debounce_suppression_witness :
    (([⟨false, 1000⟩, ⟨true, 1100⟩, ⟨false, 1150⟩, ⟨true, 1200⟩, ⟨true, 1299⟩] :
        List Sample).getLast (List.cons_ne_nil _ _)).now - 1000 < 300 ∧
    ∀ r ∈ trace 4 { setup.1 with lastDebounceTime := fun _ => 7 }
        [⟨false, 1000⟩, ⟨true, 1100⟩, ⟨false, 1150⟩, ⟨true, 1200⟩, ⟨true, 1299⟩],
      r.2 = [] ∧ r.1.stableState 4 = false :=
  ⟨by decide,
   debounce_suppression 4 { setup.1 with lastDebounceTime := fun _ => 7 } ⟨false, 1000⟩
    [⟨true, 1100⟩, ⟨false, 1150⟩, ⟨true, 1200⟩, ⟨true, 1299⟩]
    (by decide) (by decide) (by decide) (by decide) (by decide)⟩

/-- C4, as the code behaves: with `debounceDelay = 300` and channel 0 starting
from the state set by `setup()`, for every poll schedule at non-decreasing times
that samples false at `t = 0`, true at `t = 50`, false at `t = 80`, true at
`t = 400` and true at every later poll up to `t = 750`, and that has at least
one poll in `[701, 750]`: the first four polls (in particular those at `t = 80`
and `t = 400`) and every later poll at a time `≤ 700` print nothing and leave the
stable state false, the first poll at a time `≥ 701` prints `A`, and the stable
state is true after that poll and every later one. -/
theorem scenario_edge_after_700 (later : List Sample)
    (hraw : ∀ p ∈ later, p.raw = true)
    (hsorted : (([⟨false, 0⟩, ⟨true, 50⟩, ⟨false, 80⟩, ⟨true, 400⟩] : List Sample) ++
      later).Pairwise (fun a b => a.now ≤ b.now))
    (hupto : ∀ p ∈ later, p.now ≤ 750)
    (hex : ∃ p ∈ later, 701 ≤ p.now) :
    ∃ early p late, later = early ++ p :: late ∧
      (∀ q ∈ early, q.now ≤ 700) ∧ 701 ≤ p.now ∧ (∀ q ∈ late, 701 ≤ q.now) ∧
      outputs 0 setup.1 ([⟨false, 0⟩, ⟨true, 50⟩, ⟨false, 80⟩, ⟨true, 400⟩] ++ later) =
        [[], [], [], []] ++
          (early.map (fun _ => []) ++ ["A"] :: late.map (fun _ => [])) ∧
      stables 0 setup.1 ([⟨false, 0⟩, ⟨true, 50⟩, ⟨false, 80⟩, ⟨true, 400⟩] ++ later) =
        [false, false, false, false] ++
          (early.map (fun _ => false) ++ true :: late.map (fun _ => true)) := by
  obtain ⟨_, hlsorted, hcross⟩ := List.pairwise_append.mp hsorted
  have hge : ∀ p ∈ later, 400 ≤ p.now := fun p hp =>
    hcross ⟨true, 400⟩ (by simp) p hp
  have hall : ∀ p ∈ later, p.raw = true ∧ 400 ≤ p.now ∧ p.now < 2 ^ 32 := by
    intro p hp
    have h1 := hupto p hp
    exact ⟨hraw p hp, hge p hp, by omega⟩
  obtain ⟨early, p, late, hps, hearly, hp, ho, hs⟩ :=
    hold_high_phase 0 400 later
      (runState 0 setup.1 [⟨false, 0⟩, ⟨true, 50⟩, ⟨false, 80⟩, ⟨true, 400⟩])
      (by decide) (by decide) (by decide) hall hex
  have hsorted' : (p :: late).Pairwise (fun a b => a.now ≤ b.now) := by
    rw [hps] at hlsorted
    exact (List.pairwise_append.mp hlsorted).2.1
  refine ⟨early, p, late, hps, hearly, hp, ?_, ?_, ?_⟩
  · intro q hq
    exact le_trans hp ((List.pairwise_cons.mp hsorted').1 q hq)
  · rw [outputs_append, ho]
    rfl
  · rw [stables_append, hs]
    rfl

theorem scenario_edge_after_700_witness :
    ∃ early p late,
      ([⟨true, 500⟩, ⟨true, 700⟩, ⟨true, 701⟩, ⟨true, 750⟩] : List Sample) =
        early ++ p :: late ∧
      (∀ q ∈ early, q.now ≤ 700) ∧ 701 ≤ p.now ∧ (∀ q ∈ late, 701 ≤ q.now) ∧
      outputs 0 setup.1 ([⟨false, 0⟩, ⟨true, 50⟩, ⟨false, 80⟩, ⟨true, 400⟩] ++
          [⟨true, 500⟩, ⟨true, 700⟩, ⟨true, 701⟩, ⟨true, 750⟩]) =
        [[], [], [], []] ++
          (early.map (fun _ => []) ++ ["A"] :: late.map (fun _ => [])) ∧
      stables 0 setup.1 ([⟨false, 0⟩, ⟨true, 50⟩, ⟨false, 80⟩, ⟨true, 400⟩] ++
          [⟨true, 500⟩, ⟨true, 700⟩, ⟨true, 701⟩, ⟨true, 750⟩]) =
        [false, false, false, false] ++
          (early.map (fun _ => false) ++ true :: late.map (fun _ => true)) :=
  scenario_edge_after_700 [⟨true, 500⟩, ⟨true, 700⟩, ⟨true, 701⟩, ⟨true, 750⟩]
    (by decide) (by decide) (by decide) (by decide)

/-- C4, as stated, fails: on the schedule that polls at `t = 0, 50, 80, 400`
and then at `t = 700` (a poll in `[700, 750]`, and the first poll at a time
`≥ 700`), the poll at `t = 700` prints nothing and leaves the stable state
false, because `700 - 400 > 300` is false. -/
theorem scenario_poll_at_700_prints_nothing :
    [(⟨false, 0⟩ : Sample), ⟨true, 50⟩, ⟨false, 80⟩, ⟨true, 400⟩, ⟨true, 700⟩].Pairwise
        (fun a b => a.now ≤ b.now) ∧
    outputs 0 setup.1 [⟨false, 0⟩, ⟨true, 50⟩, ⟨false, 80⟩, ⟨true, 400⟩, ⟨true, 700⟩] =
      [[], [], [], [], []] ∧
    stables 0 setup.1 [⟨false, 0⟩, ⟨true, 50⟩, ⟨false, 80⟩, ⟨true, 400⟩, ⟨true, 700⟩] =
      [false, false, false, false, false] := by
  decide

/-- C5 (P4): from a channel state with `stableState[i] = true`, every poll of a
sequence of polls that all read high (any timestamps) prints nothing and leaves
`stableState[i]` true; consequently, in any run from any state, if a poll `p`
prints the symbol and a later poll `q` prints the symbol, then some poll `x`
strictly between them takes `stableState[i]` from true to false. -/
theorem no_retrigger_without_release (i : Fin 7) :
    (∀ (st : State) (ps : List Sample), st.stableState i = true →
      (∀ p ∈ ps, p.raw = true) →
      ∀ r ∈ trace i st ps, r.2 = [] ∧ r.1.stableState i = true) ∧
    (∀ (st : State) (pre mid : List Sample) (p q : Sample),
      (poll i (runState i st pre) p).2 = [(commands i).toString] →
      (poll i (runState i st (pre ++ p :: mid)) q).2 = [(commands i).toString] →
      ∃ a x b, mid = a ++ x :: b ∧
        (runState i st (pre ++ p :: a)).stableState i = true ∧
        (runState i st (pre ++ p :: a ++ [x])).stableState i = false) := by
  refine ⟨fun st ps hs hraw => trace_high_of_stable i ps st hs hraw, ?_⟩
  intro st pre mid p q hp hq
  have hstable : (poll i (runState i st pre) p).1.stableState i = true := by
    rw [poll_output] at hp
    rw [poll_stableState]
    generalize (if p.raw ≠ (runState i st pre).lastReading i then p.now
      else (runState i st pre).lastDebounceTime i) = t at hp ⊢
    by_cases h : ulongSub p.now t > 300 ∧ p.raw = true ∧
        (runState i st pre).stableState i = false
    · rw [if_pos h.1]; exact h.2.1
    · rw [if_neg h] at hp
      exact absurd hp (by simp)
  have hrun : ∀ l, runState i st (pre ++ p :: l) =
      runState i (poll i (runState i st pre) p).1 l := by
    intro l
    rw [runState_append, runState_cons]
  rw [hrun] at hq
  obtain ⟨a, x, b, hmid, ha, hx⟩ :=
    exists_release_between i mid (poll i (runState i st pre) p).1 q hstable hq
  refine ⟨a, x, b, hmid, ?_, ?_⟩
  · rw [hrun]; exact ha
  · rw [List.append_assoc, List.cons_append, hrun, runState_concat]; exact hx

theorem no_retrigger_without_release_witness :
    (∀ r ∈ trace 2 { setup.1 with stableState := fun _ => true }
        [⟨true, 5⟩, ⟨true, 1000⟩, ⟨true, 7⟩],
      r.2 = [] ∧ r.1.stableState 2 = true) ∧
    ∃ a x b, ([⟨false, 400⟩, ⟨false, 800⟩, ⟨true, 900⟩] : List Sample) = a ++ x :: b ∧
      (runState 2 setup.1 ([⟨true, 0⟩] ++ ⟨true, 301⟩ :: a)).stableState 2 = true ∧
      (runState 2 setup.1 ([⟨true, 0⟩] ++ ⟨true, 301⟩ :: a ++ [x])).stableState 2 = false :=
  ⟨(no_retrigger_without_release 2).1 { setup.1 with stableState := fun _ => true }
      [⟨true, 5⟩, ⟨true, 1000⟩, ⟨true, 7⟩] (by decide) (by decide),
   (no_retrigger_without_release 2).2 setup.1 [⟨true, 0⟩]
      [⟨false, 400⟩, ⟨false, 800⟩, ⟨true, 900⟩] ⟨true, 301⟩ ⟨true, 1201⟩
      (by decide) (by decide)⟩

/-- C6 (P5): from a channel state with `stableState[i] = true` and
`lastReading[i] = false`, a poll with `raw = false` at a time `now` with
`now - lastDebounceTime[i] > 300` changes `stableState[i]` to false and prints
nothing; more generally, no pass of the loop body (any state, any reading, any
clock values) that leaves `stableState[i]` false prints anything. -/
theorem release_prints_nothing (i : Fin 7) (st : State) (now : Nat)
    (hstable : st.stableState i = true) (hlast : st.lastReading i = false)
    (helapsed : now - st.lastDebounceTime i > 300) (hnow : now < 2 ^ 32) :
    ((poll i st ⟨false, now⟩).1.stableState i = false ∧
      (poll i st ⟨false, now⟩).1.stableState i ≠ st.stableState i ∧
      (poll i st ⟨false, now⟩).2 = []) ∧
    ∀ (st' : State) (reading : Bool) (m1 m2 : Nat),
      (loopBody i reading m1 m2 st').1.stableState i = false →
        (loopBody i reading m1 m2 st').2 = [] := by
  constructor
  · have hsub : ulongSub now (st.lastDebounceTime i) = now - st.lastDebounceTime i :=
      ulongSub_of_le (by omega) hnow
    unfold poll
    rw [loopBody_output, loopBody_stableState]
    simp [hlast, hstable, hsub, helapsed]
  · intro st' reading m1 m2
    rw [loopBody_output, loopBody_stableState]
    split_ifs <;> simp_all

theorem release_prints_nothing_witness :
    ((poll 3 { setup.1 with stableState := fun _ => true } ⟨false, 301⟩).1.stableState 3 = false ∧
      (poll 3 { setup.1 with stableState := fun _ => true } ⟨false, 301⟩).1.stableState 3 ≠
        (fun _ => true : Fin 7 → Bool) 3 ∧
      (poll 3 { setup.1 with stableState := fun _ => true } ⟨false, 301⟩).2 = []) ∧
    ∀ (st' : State) (reading : Bool) (m1 m2 : Nat),
      (loopBody 3 reading m1 m2 st').1.stableState 3 = false →
        (loopBody 3 reading m1 m2 st').2 = [] :=
  release_prints_nothing 3 { setup.1 with stableState := fun _ => true } 301
    (by decide) (by decide) (by decide) (by decide)

/-- C7 (P1): `setup()` leaves each of the 7 channels with `stableState = false`,
`lastReading = false` and `lastDebounceTime = 0`; and whenever channel `i` still
has these values, a poll of it with any raw value at any time `now ≤ 300` prints
nothing and leaves `stableState[i]` false. -/
theorem no_edge_on_init :
    (∀ i : Fin 7, setup.1.stableState i = false ∧ setup.1.lastReading i = false ∧
      setup.1.lastDebounceTime i = 0) ∧
    ∀ (i : Fin 7) (st : State) (raw : Bool) (now : Nat),
      st.stableState i = setup.1.stableState i →
      st.lastReading i = setup.1.lastReading i →
      st.lastDebounceTime i = setup.1.lastDebounceTime i →
      now ≤ 300 →
        (poll i st ⟨raw, now⟩).2 = [] ∧ (poll i st ⟨raw, now⟩).1.stableState i = false := by
  refine ⟨fun i => ⟨rfl, rfl, rfl⟩, ?_⟩
  intro i st raw now hs hl ht hnow
  have hs' : st.stableState i = false := hs
  have hl' : st.lastReading i = false := hl
  have ht' : st.lastDebounceTime i = 0 := ht
  have hlt : now < 2 ^ 32 := by omega
  have hsub : ulongSub now (if raw ≠ st.lastReading i then now else st.lastDebounceTime i) =
      now - (if raw ≠ st.lastReading i then now else st.lastDebounceTime i) := by
    apply ulongSub_of_le _ hlt
    split_ifs <;> omega
  have hno : ¬ (now - (if raw ≠ st.lastReading i then now else st.lastDebounceTime i) > 300) := by
    split_ifs <;> omega
  unfold poll
  rw [loopBody_output, loopBody_stableState, hsub]
  generalize (if raw ≠ st.lastReading i then now else st.lastDebounceTime i) = t at hno
  rw [if_neg (fun h => hno h.1), if_neg hno]
  exact ⟨rfl, hs'⟩

theorem no_edge_on_init_witness :
    (poll 6 setup.1 ⟨true, 300⟩).2 = [] ∧ (poll 6 setup.1 ⟨true, 300⟩).1.stableState 6 = false :=
  no_edge_on_init.2 6 setup.1 true 300 rfl rfl rfl (by decide)

/-- C8: for every channel state and every input (reading and both clock
values), a pass of the loop body prints the channel's symbol iff it changes
`stableState[i]` from false to true; a pass that leaves `stableState[i]`
unchanged, or changes it from true to false, prints nothing; and a single pass
prints at most one line, which can only be the channel's symbol. -/
theorem emits_iff_rising (i : Fin 7) (st : State) (reading : Bool) (m1 m2 : Nat) :
    ((loopBody i reading m1 m2 st).2 = [(commands i).toString] ↔
      (st.stableState i = false ∧ (loopBody i reading m1 m2 st).1.stableState i = true)) ∧
    (((loopBody i reading m1 m2 st).1.stableState i = st.stableState i ∨
        (st.stableState i = true ∧ (loopBody i reading m1 m2 st).1.stableState i = false)) →
      (loopBody i reading m1 m2 st).2 = []) ∧
    (loopBody i reading m1 m2 st).2.length ≤ 1 ∧
    ((loopBody i reading m1 m2 st).2 = [] ∨
      (loopBody i reading m1 m2 st).2 = [(commands i).toString]) := by
  rw [loopBody_output, loopBody_stableState]
  cases hs : st.stableState i <;> cases hr : reading <;> split_ifs <;> simp_all

/-- C9: in every run of one channel from the `setup()` state under
non-decreasing `unsigned long` timestamps, if `stableState[i]` changes at a poll
`p` and changes at a later poll `q` (in particular at the next poll that
changes it), then `q.now - p.now > 300`: the stable state changes at most once
in any window of 300 ms. -/
theorem stable_changes_once_per_window (i : Fin 7) (pre mid : List Sample) (p q : Sample)
    (hsorted : (pre ++ p :: mid ++ [q]).Pairwise (fun a b => a.now ≤ b.now))
    (hrange : ∀ x ∈ pre ++ p :: mid ++ [q], x.now < 2 ^ 32)
    (hp : (poll i (runState i setup.1 pre) p).1.stableState i ≠
      (runState i setup.1 pre).stableState i)
    (hq : (poll i (runState i setup.1 (pre ++ p :: mid)) q).1.stableState i ≠
      (runState i setup.1 (pre ++ p :: mid)).stableState i) :
    q.now - p.now > 300 := by
  have hsorted' : (p :: (mid ++ [q])).Pairwise (fun a b => a.now ≤ b.now) := by
    rw [List.append_assoc, List.cons_append] at hsorted
    exact (List.pairwise_append.mp hsorted).2.1
  obtain ⟨hpafter, hmq⟩ := List.pairwise_cons.mp hsorted'
  have hmidq : ∀ x ∈ mid, x.now ≤ q.now :=
    fun x hx => (List.pairwise_append.mp hmq).2.2 x hx q (List.mem_singleton_self _)
  have hpnow : p.now < 2 ^ 32 := hrange p (by simp)
  have hqnow : q.now < 2 ^ 32 := hrange q (by simp)
  have hall : ∀ x ∈ mid, p.now ≤ x.now ∧ x.now ≤ q.now ∧ x.now < 2 ^ 32 :=
    fun x hx => ⟨hpafter x (List.mem_append_left _ hx), hmidq x hx, hrange x (by simp [hx])⟩
  have hpq : p.now ≤ q.now := hpafter q (by simp)
  -- the state right after `p`: the last reading equals the new stable state
  obtain ⟨_, hpst, _⟩ := poll_change i (runState i setup.1 pre) p hpnow hp
  have hinv0 : (poll i (runState i setup.1 pre) p).1.lastReading i =
      (poll i (runState i setup.1 pre) p).1.stableState i := by
    rw [poll_lastReading, hpst]
  have hrun : runState i setup.1 (pre ++ p :: mid) =
      runState i (poll i (runState i setup.1 pre) p).1 mid := by
    rw [runState_append, runState_cons]
  have hinv := window_invariant_run i p.now q.now mid
    (poll i (runState i setup.1 pre) p).1 (Or.inl hinv0) hall
  rw [← hrun] at hinv
  obtain ⟨hqeq, hqst, hqgt⟩ := poll_change i _ q hqnow hq
  rcases hinv with hagree | ⟨hlo, hhi⟩
  · exact absurd (hqst.trans (hqeq.trans hagree)) hq
  · rw [ulongSub_of_le hhi hqnow] at hqgt
    omega

theorem stable_changes_once_per_window_witness :
    (poll 1 (runState 1 setup.1 [⟨true, 0⟩]) ⟨true, 301⟩).1.stableState 1 ≠
      (runState 1 setup.1 [⟨true, 0⟩]).stableState 1 ∧
    (poll 1 (runState 1 setup.1 ([⟨true, 0⟩] ++ ⟨true, 301⟩ ::
        [⟨false, 900⟩, ⟨false, 1000⟩])) ⟨false, 1500⟩).1.stableState 1 ≠
      (runState 1 setup.1 ([⟨true, 0⟩] ++ ⟨true, 301⟩ ::
        [⟨false, 900⟩, ⟨false, 1000⟩])).stableState 1 ∧
    (1500 : Nat) - 301 > 300 :=
  ⟨by decide, by decide,
   stable_changes_once_per_window 1 [⟨true, 0⟩] [⟨false, 900⟩, ⟨false, 1000⟩]
    ⟨true, 301⟩ ⟨false, 1500⟩ (by decide) (by decide) (by decide) (by decide)⟩

/-- C10: in every run of one channel from the `setup()` state under
non-decreasing `unsigned long` timestamps, whenever a poll `p` changes
`stableState[i]` to a value `v`, there is an earlier poll `q` of the run with
`p.now - q.now > 300` such that every poll from `q` up to and including `p`
read `raw = v`. -/
theorem debounce_window_is_minimum (i : Fin 7) (pre : List Sample) (p : Sample)
    (hsorted : (pre ++ [p]).Pairwise (fun a b => a.now ≤ b.now))
    (hrange : ∀ x ∈ pre ++ [p], x.now < 2 ^ 32)
    (hchange : (poll i (runState i setup.1 pre) p).1.stableState i ≠
      (runState i setup.1 pre).stableState i) :
    ∃ a q b, pre = a ++ q :: b ∧ p.now - q.now > 300 ∧
      ∀ x ∈ q :: b ++ [p], x.raw = (poll i (runState i setup.1 pre) p).1.stableState i := by
  have hpnow : p.now < 2 ^ 32 := hrange p (by simp)
  obtain ⟨hpeq, hpst, hpgt⟩ := poll_change i (runState i setup.1 pre) p hpnow hchange
  rcases streak_invariant i pre with ⟨hlow, hstable⟩ | ⟨a, q, b, hpre, hq, hall⟩
  · exact absurd (hpst.trans (hpeq.trans (hlow.trans hstable.symm))) hchange
  · have hqp : q.now ≤ p.now :=
      (List.pairwise_append.mp hsorted).2.2 q (by rw [hpre]; simp) p
        (List.mem_singleton_self _)
    rw [← hq, ulongSub_of_le hqp hpnow] at hpgt
    refine ⟨a, q, b, hpre, hpgt, ?_⟩
    intro x hx
    rw [hpst]
    rcases List.mem_append.mp hx with hx | hx
    · exact (hall x hx).trans hpeq.symm
    · rw [List.mem_singleton.mp hx]

theorem debounce_window_is_minimum_witness :
    ∃ a q b, ([⟨false, 0⟩, ⟨true, 100⟩, ⟨true, 250⟩] : List Sample) = a ++ q :: b ∧
      401 - q.now > 300 ∧
      ∀ x ∈ q :: b ++ [⟨true, 401⟩],
        x.raw = (poll 5 (runState 5 setup.1 [⟨false, 0⟩, ⟨true, 100⟩, ⟨true, 250⟩])
          ⟨true, 401⟩).1.stableState 5 :=
  debounce_window_is_minimum 5 [⟨false, 0⟩, ⟨true, 100⟩, ⟨true, 250⟩] ⟨true, 401⟩
    (by decide) (by decide) (by decide)

/-- C11: from a channel state with `stableState[i] = false` and
`lastReading[i] = false`, for every sequence of polls that all read high, at
non-decreasing `unsigned long` times, in which consecutive polls are at most
`gap` ms apart, whose first poll is at time `t_d` and which reaches a time
`≥ t_d + 300 + gap`: exactly one poll `x` prints the channel's symbol, and its
time satisfies `300 < x.now - t_d ≤ 300 + gap`. -/
theorem effective_debounce_time (i : Fin 7) (st : State) (p0 : Sample) (ps : List Sample)
    (gap : Nat)
    (hstable : st.stableState i = false) (hlast : st.lastReading i = false)
    (hraw : ∀ p ∈ p0 :: ps, p.raw = true)
    (hsorted : (p0 :: ps).Pairwise (fun a b => a.now ≤ b.now))
    (hgap : List.Chain' (fun a b : Sample => b.now ≤ a.now + gap) (p0 :: ps))
    (hrange : ∀ p ∈ p0 :: ps, p.now < 2 ^ 32)
    (hext : ∃ p ∈ p0 :: ps, p0.now + 300 + gap ≤ p.now) :
    ∃ early x late, p0 :: ps = early ++ x :: late ∧
      outputs i st (p0 :: ps) =
        early.map (fun _ => []) ++ [(commands i).toString] :: late.map (fun _ => []) ∧
      300 < x.now - p0.now ∧ x.now - p0.now ≤ 300 + gap := by
  have hp0raw : p0.raw = true := hraw p0 (List.mem_cons_self _ _)
  have hp0now : p0.now < 2 ^ 32 := hrange p0 (List.mem_cons_self _ _)
  have hne : p0.raw ≠ st.lastReading i := by rw [hp0raw, hlast]; decide
  obtain ⟨hout, hst, htm⟩ := poll_of_raw_ne i st p0 hne hp0now
  have hlr : (poll i st p0).1.lastReading i = true := (poll_lastReading i st p0).trans hp0raw
  have hge : ∀ p ∈ ps, p0.now ≤ p.now := (List.pairwise_cons.mp hsorted).1
  have hall : ∀ p ∈ ps, p.raw = true ∧ p0.now ≤ p.now ∧ p.now < 2 ^ 32 :=
    fun p hp => ⟨hraw p (List.mem_cons_of_mem _ hp), hge p hp,
      hrange p (List.mem_cons_of_mem _ hp)⟩
  have hex : ∃ p ∈ ps, p0.now + 301 ≤ p.now := by
    obtain ⟨p, hp, hpT⟩ := hext
    rcases Nat.eq_zero_or_pos gap with hzero | hpos
    · subst hzero
      have := now_le_head_of_chain_zero ps p0 hgap p hp
      omega
    · rcases List.mem_cons.mp hp with rfl | hp'
      · omega
      · exact ⟨p, hp', by omega⟩
  obtain ⟨early, x, late, hps, hearly, hx, ho, _⟩ :=
    hold_high_phase i p0.now ps (poll i st p0).1 (hst.trans hstable) hlr htm hall hex
  have hsplit : p0 :: ps = (p0 :: early) ++ x :: late := by rw [hps]; rfl
  -- the poll before `x` is at a time `≤ t_d + 300`, and `x` is at most `gap` later
  have hprev : ∀ z ∈ (p0 :: early).getLast?, x.now ≤ z.now + gap := by
    intro z hz
    rw [hsplit] at hgap
    exact (List.chain'_append.mp hgap).2.2 z hz x rfl
  have hz := hprev ((p0 :: early).getLast (List.cons_ne_nil _ _))
    (List.getLast?_eq_getLast _ _)
  have hzmem := List.getLast_mem (List.cons_ne_nil p0 early)
  have hzle : ((p0 :: early).getLast (List.cons_ne_nil _ _)).now ≤ p0.now + 300 := by
    rcases List.mem_cons.mp hzmem with h | h
    · rw [h]; omega
    · exact hearly _ h
  refine ⟨p0 :: early, x, late, hsplit, ?_, by omega, by omega⟩
  rw [outputs_cons, hout, ho]; rfl

theorem effective_debounce_time_witness :
    ∃ early x late,
      ([⟨true, 1000⟩, ⟨true, 1200⟩, ⟨true, 1290⟩, ⟨true, 1490⟩, ⟨true, 1500⟩] : List Sample) =
        early ++ x :: late ∧
      outputs 3 setup.1 [⟨true, 1000⟩, ⟨true, 1200⟩, ⟨true, 1290⟩, ⟨true, 1490⟩, ⟨true, 1500⟩] =
        early.map (fun _ => []) ++ [(commands 3).toString] :: late.map (fun _ => []) ∧
      300 < x.now - 1000 ∧ x.now - 1000 ≤ 300 + 200 :=
  effective_debounce_time 3 setup.1 ⟨true, 1000⟩
    [⟨true, 1200⟩, ⟨true, 1290⟩, ⟨true, 1490⟩, ⟨true, 1500⟩] 200
    (by decide) (by decide) (by decide) (by decide) (by simp) (by decide) (by decide)

/-- C12 (P6): for every state of the 7 channels, all pin levels and every time
`now`, the lines written by one call of `loop()` are exactly the symbols
`commands[i]` of the channels `i` whose poll validates an edge, in increasing
index order; hence they form a subsequence of `A, B, C, D, E, F, G`, and when
channels 2 and 5 both validate, `C` is written before `F`.  Every vector of 7
raw readings is the response of some pin levels. -/
theorem loop_output_order (digitalRead : Nat → Bool) (now : Nat) (st : State) :
    (loop digitalRead now st).2 =
      ((List.finRange 7).filter (fun i =>
        decide ((poll i st ⟨digitalRead (buttonPins i), now⟩).2 =
          [(commands i).toString]))).map (fun i => (commands i).toString) ∧
    List.finRange 7 = [0, 1, 2, 3, 4, 5, 6] ∧
    List.Sublist (loop digitalRead now st).2 ["A", "B", "C", "D", "E", "F", "G"] ∧
    ((poll 2 st ⟨digitalRead (buttonPins 2), now⟩).2 = ["C"] →
      (poll 5 st ⟨digitalRead (buttonPins 5), now⟩).2 = ["F"] →
      ∃ a b c, (loop digitalRead now st).2 = a ++ "C" :: (b ++ "F" :: c)) ∧
    (∀ r : Fin 7 → Bool, ∃ pins : Nat → Bool, ∀ i, pins (buttonPins i) = r i) := by
  have hmain : (loop digitalRead now st).2 =
      ((List.finRange 7).filter (fun i =>
        decide ((poll i st ⟨digitalRead (buttonPins i), now⟩).2 =
          [(commands i).toString]))).map (fun i => (commands i).toString) := by
    rw [loop_output, filter_map_eq_flatMap]
    congr 1
    funext i
    exact poll_output_eq_ite i st _
  refine ⟨hmain, finRange_seven, ?_, ?_, ?_⟩
  · rw [hmain]
    have hall : (List.finRange 7).map (fun i => (commands i).toString) =
        ["A", "B", "C", "D", "E", "F", "G"] := by decide
    rw [← hall]
    exact (List.filter_sublist _).map _
  · intro h2 h5
    refine ⟨(poll 0 st ⟨digitalRead (buttonPins 0), now⟩).2 ++
        (poll 1 st ⟨digitalRead (buttonPins 1), now⟩).2,
      (poll 3 st ⟨digitalRead (buttonPins 3), now⟩).2 ++
        (poll 4 st ⟨digitalRead (buttonPins 4), now⟩).2,
      (poll 6 st ⟨digitalRead (buttonPins 6), now⟩).2, ?_⟩
    rw [loop_output, finRange_seven]
    simp only [List.flatMap_cons, List.flatMap_nil, h2, h5]
    simp
  · intro r
    refine ⟨fun pin => if h : pin - 2 < 7 then r ⟨pin - 2, h⟩ else false, ?_⟩
    intro i
    have hpin : ∀ j : Fin 7, buttonPins j = j.val + 2 := by decide
    have hlt : buttonPins i - 2 < 7 := by rw [hpin i]; have := i.isLt; omega
    have hidx : (⟨buttonPins i - 2, hlt⟩ : Fin 7) = i :=
      Fin.ext (show buttonPins i - 2 = i.val by rw [hpin i]; simp)
    show (if h : buttonPins i - 2 < 7 then r ⟨buttonPins i - 2, h⟩ else false) = r i
    rw [dif_pos hlt, hidx]

/-- C13: the configuration assigns distinct values across the 7 channels: for
all channel indices `i ≠ j`, `commands[i] ≠ commands[j]` and
`buttonPins[i] ≠ buttonPins[j]`. -/
theorem config_distinct (i j : Fin 7) (hij : i ≠ j) :
    commands i ≠ commands j ∧ buttonPins i ≠ buttonPins j := by
  revert i j
  decide

theorem config_distinct_witness : commands 2 ≠ commands 5 ∧ buttonPins 2 ≠ buttonPins 5 :=
  config_distinct 2 5 (by decide)

/-- C14: for every channel state and every input, after a pass of the loop body
`lastReading[i]` equals the reading, whatever the debounce outcome, and
`lastDebounceTime[i]` equals the `millis()` value of line 41 if the reading
differed from the previous `lastReading[i]` and is unchanged otherwise; in
particular for a poll `(raw, now)` in which both clock reads return `now`. -/
theorem raw_bookkeeping (i : Fin 7) (st : State) :
    (∀ (reading : Bool) (m1 m2 : Nat),
      (loopBody i reading m1 m2 st).1.lastReading i = reading ∧
      (loopBody i reading m1 m2 st).1.lastDebounceTime i =
        (if reading ≠ st.lastReading i then m1 else st.lastDebounceTime i)) ∧
    (∀ (raw : Bool) (now : Nat),
      (poll i st ⟨raw, now⟩).1.lastReading i = raw ∧
      (poll i st ⟨raw, now⟩).1.lastDebounceTime i =
        (if raw ≠ st.lastReading i then now else st.lastDebounceTime i)) :=
  ⟨fun reading m1 m2 =>
      ⟨loopBody_lastReading i reading m1 m2 st, loopBody_lastDebounceTime i reading m1 m2 st⟩,
   fun raw now =>
      ⟨poll_lastReading i st ⟨raw, now⟩, poll_lastDebounceTime i st ⟨raw, now⟩⟩⟩

/-- C15: channel independence.  A pass for index `j` leaves `stableState[i]`,
`lastReading[i]` and `lastDebounceTime[i]` unchanged for every `i ≠ j`; the
cells of channel `i` after its own pass, and what that pass prints, depend only
on the cells of channel `i` before it, the reading and the clock; hence after
one call of `loop()` the cells of every channel are those that the
single-channel step computes from that channel's previous cells, and the lines
printed are those of the single-channel steps, in index order. -/
theorem channel_independence (digitalRead : Nat → Bool) (now : Nat) (st : State) :
    (∀ (i j : Fin 7), i ≠ j → ∀ (reading : Bool) (m1 m2 : Nat) (s : State),
      (loopBody j reading m1 m2 s).1.stableState i = s.stableState i ∧
      (loopBody j reading m1 m2 s).1.lastReading i = s.lastReading i ∧
      (loopBody j reading m1 m2 s).1.lastDebounceTime i = s.lastDebounceTime i) ∧
    (∀ (i : Fin 7) (reading : Bool) (m1 m2 : Nat) (s s' : State),
      cells s i = cells s' i →
      cells (loopBody i reading m1 m2 s).1 i = cells (loopBody i reading m1 m2 s').1 i ∧
        (loopBody i reading m1 m2 s).2 = (loopBody i reading m1 m2 s').2) ∧
    (∀ i : Fin 7,
      (loop digitalRead now st).1.stableState i =
        (poll i st ⟨digitalRead (buttonPins i), now⟩).1.stableState i ∧
      (loop digitalRead now st).1.lastReading i =
        (poll i st ⟨digitalRead (buttonPins i), now⟩).1.lastReading i ∧
      (loop digitalRead now st).1.lastDebounceTime i =
        (poll i st ⟨digitalRead (buttonPins i), now⟩).1.lastDebounceTime i) ∧
    (loop digitalRead now st).2 =
      (List.finRange 7).flatMap
        (fun i => (poll i st ⟨digitalRead (buttonPins i), now⟩).2) := by
  refine ⟨?_, ?_, ?_, loop_output digitalRead now st⟩
  · intro i j hij reading m1 m2 s
    have h := loopBody_frame i j hij reading m1 m2 s
    unfold cells at h
    simp only [Prod.mk.injEq] at h
    exact h
  · intro i reading m1 m2 s s' h
    exact loopBody_local i reading m1 m2 s s' h
  · intro i
    have h := loop_cells digitalRead now st i
    unfold cells at h
    simp only [Prod.mk.injEq] at h
    exact h

/-- C16: in every run of a channel from the `setup()` state by polls at
non-decreasing `unsigned long` timestamps, `lastDebounceTime[i]` is at most the
clock value of the poll `p` being made, both before the poll and after it (when
`p` is the most recent poll); hence the subtraction
`millis() - lastDebounceTime[i]` of line 45 does not wrap: it is the ordinary
difference between the clock and the stored timestamp. -/
theorem lastDebounceTime_le_clock (i : Fin 7) (pre : List Sample) (p : Sample)
    (hsorted : (pre ++ [p]).Pairwise (fun a b => a.now ≤ b.now))
    (hrange : ∀ x ∈ pre ++ [p], x.now < 2 ^ 32) :
    (runState i setup.1 pre).lastDebounceTime i ≤ p.now ∧
    (runState i setup.1 (pre ++ [p])).lastDebounceTime i ≤ p.now ∧
    ulongSub p.now ((runState i setup.1 pre).lastDebounceTime i) =
      p.now - (runState i setup.1 pre).lastDebounceTime i ∧
    ulongSub p.now ((runState i setup.1 (pre ++ [p])).lastDebounceTime i) =
      p.now - (runState i setup.1 (pre ++ [p])).lastDebounceTime i := by
  have hpnow : p.now < 2 ^ 32 := hrange p (by simp)
  have hbefore : (runState i setup.1 pre).lastDebounceTime i ≤ p.now := by
    rcases lastDebounceTime_zero_or_mem i pre with h0 | ⟨q, hq, hqL⟩
    · rw [h0]; exact Nat.zero_le _
    · rw [← hqL]
      exact (List.pairwise_append.mp hsorted).2.2 q hq p (List.mem_singleton_self _)
  have hafter : (runState i setup.1 (pre ++ [p])).lastDebounceTime i ≤ p.now := by
    rw [runState_concat, poll_lastDebounceTime]
    by_cases hne : p.raw ≠ (runState i setup.1 pre).lastReading i
    · rw [if_pos hne]
    · rw [if_neg hne]; exact hbefore
  exact ⟨hbefore, hafter, ulongSub_of_le hbefore hpnow, ulongSub_of_le hafter hpnow⟩

theorem lastDebounceTime_le_clock_witness :
    (runState 0 setup.1 [⟨true, 40⟩, ⟨false, 90⟩, ⟨false, 500⟩]).lastDebounceTime 0 ≤ 500 ∧
    (runState 0 setup.1 ([⟨true, 40⟩, ⟨false, 90⟩, ⟨false, 500⟩] ++
      [⟨true, 500⟩])).lastDebounceTime 0 ≤ 500 ∧
    ulongSub 500 ((runState 0 setup.1 [⟨true, 40⟩, ⟨false, 90⟩, ⟨false, 500⟩]).lastDebounceTime 0) =
      500 - (runState 0 setup.1 [⟨true, 40⟩, ⟨false, 90⟩, ⟨false, 500⟩]).lastDebounceTime 0 ∧
    ulongSub 500 ((runState 0 setup.1 ([⟨true, 40⟩, ⟨false, 90⟩, ⟨false, 500⟩] ++
      [⟨true, 500⟩])).lastDebounceTime 0) =
      500 - (runState 0 setup.1 ([⟨true, 40⟩, ⟨false, 90⟩, ⟨false, 500⟩] ++
        [⟨true, 500⟩])).lastDebounceTime 0 :=
  lastDebounceTime_le_clock 0 [⟨true, 40⟩, ⟨false, 90⟩, ⟨false, 500⟩] ⟨true, 500⟩
    (by decide) (by decide)

/-- C17: with timestamps as 32-bit unsigned values, for every stored timestamp
`last` and every true elapsed time `d < 2 ^ 32`, if the clock reads
`(last + d) mod 2 ^ 32` then the `unsigned long` subtraction `now - last` yields
`d` (also when the clock has wrapped past zero and reads less than `last`), so
the comparison of line 45 is true exactly when `d > 300`; accordingly a pass of the loop body whose reading
is unchanged moves `stableState[i]` to the reading iff `d > 300`, and prints
iff moreover the reading is high and the stable state was low. -/
theorem rollover_elapsed (last d : Nat) (hlast : last < 2 ^ 32) (hd : d < 2 ^ 32) :
    ulongSub ((last + d) % 2 ^ 32) last = d ∧
    (2 ^ 32 ≤ last + d → (last + d) % 2 ^ 32 < last) ∧
    (ulongSub ((last + d) % 2 ^ 32) last > debounceDelay ↔ d > 300) ∧
    ∀ (i : Fin 7) (st : State) (reading : Bool) (m1 : Nat),
      st.lastDebounceTime i = last → reading = st.lastReading i →
      (loopBody i reading m1 ((last + d) % 2 ^ 32) st).1.stableState i =
          (if d > 300 then reading else st.stableState i) ∧
        (loopBody i reading m1 ((last + d) % 2 ^ 32) st).2 =
          (if d > 300 ∧ reading = true ∧ st.stableState i = false
           then [(commands i).toString] else []) := by
  have hsub : ulongSub ((last + d) % 2 ^ 32) last = d := by
    unfold ulongSub ulongModulus
    omega
  refine ⟨hsub, ?_, ?_, ?_⟩
  · intro hwrap
    omega
  · rw [hsub]; exact Iff.rfl
  · intro i st reading m1 htime hread
    rw [loopBody_stableState, loopBody_output, if_neg (not_not.mpr hread), htime, hsub]
    exact ⟨rfl, rfl⟩

theorem rollover_elapsed_witness :
    ulongSub ((4294967290 + 311) % 2 ^ 32) 4294967290 = 311 ∧
    (2 ^ 32 ≤ 4294967290 + 311 → (4294967290 + 311) % 2 ^ 32 < 4294967290) ∧
    (ulongSub ((4294967290 + 311) % 2 ^ 32) 4294967290 > debounceDelay ↔ 311 > 300) ∧
    ∀ (i : Fin 7) (st : State) (reading : Bool) (m1 : Nat),
      st.lastDebounceTime i = 4294967290 → reading = st.lastReading i →
      (loopBody i reading m1 ((4294967290 + 311) % 2 ^ 32) st).1.stableState i =
          (if 311 > 300 then reading else st.stableState i) ∧
        (loopBody i reading m1 ((4294967290 + 311) % 2 ^ 32) st).2 =
          (if 311 > 300 ∧ reading = true ∧ st.stableState i = false
           then [(commands i).toString] else []) :=
  rollover_elapsed 4294967290 311 (by decide) (by decide)

end Debounce
